import Mathlib

/-!
Verification of the trigger-keyword resolver in `nodes/CustomLoraLoader.py`.

The development shallowly embeds the three layers of the resolver:

* the paginated search worker `search_civitai_paginated`, modelled as a
  recursion over a finite chain of page-fetch results;
* the concurrent reduction inside `fetch_triggers_for_lora`, modelled as a
  fold over the per-partition results listed in completion order;
* the cache store (`load_keywords_from_json` / `save_keywords_to_json`) and
  the orchestration in `fetch_triggers_for_lora`, modelled as explicit state
  passing over an association-list store plus a persisted-document copy.

A per-partition search result is `Option (List String)`: `none` is the
worker's "no match or failure" signal, `some l` a structural match whose
trigger-word list `l` may be empty.
-/

namespace LoraResolver

/-- The three-way classification of a resolution attempt (spec §3). -/
inductive TriggerOutcome where
  | Keywords (l : List String)
  | Empty
  | Error (retryable : Bool)
deriving DecidableEq, Repr

/-- Python truthiness of the `found_words` variable: `None` and the empty
list are falsy, a non-empty list is truthy. -/
def truthy : Option (List String) → Bool
  | some (_ :: _) => true
  | _ => false

/-- The `as_completed` loop of `fetch_triggers_for_lora`, lines 121-131:
results are consumed in completion order; the first truthy (non-empty)
result is kept and the loop breaks; a `some []` result sets the
`match_found_with_empty_keywords` flag; `none` contributes nothing.
Returns the pair (`found_words`, `match_found_with_empty_keywords`). -/
def resolveLoop : List (Option (List String)) → Bool → Option (List String) × Bool
  | [], me => (none, me)
  | r :: rest, me =>
    match r with
    | some l => if l.isEmpty then resolveLoop rest true else (some l, me)
    | none => resolveLoop rest me

/-- The if/elif/else classification after the loop, lines 133-146, mapped to
the spec's `TriggerOutcome`: truthy `found_words` gives `Keywords`, else the
empty-match flag gives `Empty`, else `Error{retryable: true}`. -/
def classifyOutcome (p : Option (List String) × Bool) : TriggerOutcome :=
  if truthy p.1 then TriggerOutcome.Keywords (p.1.getD [])
  else if p.2 then TriggerOutcome.Empty
  else TriggerOutcome.Error true

/-- The concurrent resolver's reduction of the per-partition results
(listed in completion order) to a final outcome. -/
def resolveOutcome (rs : List (Option (List String))) : TriggerOutcome :=
  classifyOutcome (resolveLoop rs false)

/-- Constructor tag of an outcome, used to speak about the classification
separately from the keyword payload. -/
def outcomeTag : TriggerOutcome → Nat
  | TriggerOutcome.Keywords _ => 0
  | TriggerOutcome.Empty => 1
  | TriggerOutcome.Error _ => 2

/- ### Characterisation of the resolution loop -/

theorem resolveLoop_all_none (rs : List (Option (List String))) (me : Bool)
    (h : ∀ r ∈ rs, r = none) : resolveLoop rs me = (none, me) := by
  induction rs with
  | nil => rfl
  | cons r rest ih =>
    have hr : r = none := h r (List.mem_cons_self r rest)
    subst hr
    simpa [resolveLoop] using ih fun r hr => h r (List.mem_cons_of_mem _ hr)

theorem resolveLoop_all_empty (rs : List (Option (List String))) (me : Bool)
    (h : ∀ l, some l ∈ rs → l = []) :
    resolveLoop rs me = (none, me || rs.any Option.isSome) := by
  induction rs generalizing me with
  | nil => simp [resolveLoop]
  | cons r rest ih =>
    match r with
    | none =>
      simpa [resolveLoop] using ih me fun l hl => h l (List.mem_cons_of_mem _ hl)
    | some l =>
      have hl : l = [] := h l (List.mem_cons_self _ rest)
      subst hl
      have := ih true fun l hl => h l (List.mem_cons_of_mem _ hl)
      simp [resolveLoop, this]

theorem resolveLoop_finds_nonempty (rs : List (Option (List String))) (me : Bool)
    (h : ∃ l, some l ∈ rs ∧ l ≠ []) :
    ∃ l me', l ≠ [] ∧ some l ∈ rs ∧ resolveLoop rs me = (some l, me') := by
  induction rs generalizing me with
  | nil => simp at h
  | cons r rest ih =>
    match r with
    | none =>
      obtain ⟨l, hl, hne⟩ := h
      have hl' : some l ∈ rest := by
        rcases List.mem_cons.mp hl with h1 | h1
        · exact absurd h1 (by simp)
        · exact h1
      obtain ⟨l', me', hne', hmem, heq⟩ := ih me ⟨l, hl', hne⟩
      exact ⟨l', me', hne', List.mem_cons_of_mem _ hmem, by simpa [resolveLoop] using heq⟩
    | some [] =>
      obtain ⟨l, hl, hne⟩ := h
      have hl' : some l ∈ rest := by
        rcases List.mem_cons.mp hl with h1 | h1
        · exact absurd (Option.some.inj h1) hne
        · exact h1
      obtain ⟨l', me', hne', hmem, heq⟩ := ih true ⟨l, hl', hne⟩
      exact ⟨l', me', hne', List.mem_cons_of_mem _ hmem, by simpa [resolveLoop] using heq⟩
    | some (w :: ws) =>
      exact ⟨w :: ws, me, by simp, List.mem_cons_self _ rest, by simp [resolveLoop]⟩

theorem resolveOutcome_keywords (rs : List (Option (List String)))
    (h : ∃ l, some l ∈ rs ∧ l ≠ []) :
    ∃ l, l ≠ [] ∧ some l ∈ rs ∧ resolveOutcome rs = TriggerOutcome.Keywords l := by
  obtain ⟨l, me', hne, hmem, heq⟩ := resolveLoop_finds_nonempty rs false h
  refine ⟨l, hne, hmem, ?_⟩
  match l, hne with
  | w :: ws, _ => simp [resolveOutcome, heq, classifyOutcome, truthy]

theorem resolveOutcome_empty (rs : List (Option (List String)))
    (hall : ∀ l, some l ∈ rs → l = []) (hsome : some [] ∈ rs) :
    resolveOutcome rs = TriggerOutcome.Empty := by
  have hany : rs.any Option.isSome = true :=
    List.any_eq_true.mpr ⟨some [], hsome, rfl⟩
  have := resolveLoop_all_empty rs false hall
  simp [resolveOutcome, this, hany, classifyOutcome, truthy]

theorem resolveOutcome_error (rs : List (Option (List String)))
    (h : ∀ r ∈ rs, r = none) :
    resolveOutcome rs = TriggerOutcome.Error true := by
  have := resolveLoop_all_none rs false h
  simp [resolveOutcome, this, classifyOutcome, truthy]

theorem truthy_some_iff (l : List String) : truthy (some l) = true ↔ l ≠ [] := by
  cases l <;> simp [truthy]

theorem resolveOutcome_no_nonempty (rs : List (Option (List String)))
    (hall : ∀ l, some l ∈ rs → l = []) :
    resolveOutcome rs =
      if rs.any Option.isSome then TriggerOutcome.Empty else TriggerOutcome.Error true := by
  have hloop := resolveLoop_all_empty rs false hall
  cases h : rs.any Option.isSome <;>
    simp [resolveOutcome, hloop, h, classifyOutcome, truthy]

/-- **C1.** Reduction of the per-partition results satisfies the tie-break
rule: if some partition returned a non-empty keyword list, the outcome is
`Keywords` with such a list; if no partition returned non-empty but some
partition returned the empty list, the outcome is `Empty`; if every
partition reported no-match/failure, the outcome is `Error{retryable:true}`. -/
theorem tie_break_correct (rs : List (Option (List String))) :
    ((∃ l, some l ∈ rs ∧ l ≠ []) →
      ∃ l, l ≠ [] ∧ some l ∈ rs ∧ resolveOutcome rs = TriggerOutcome.Keywords l)
    ∧ ((∀ l, some l ∈ rs → l = []) → some [] ∈ rs →
      resolveOutcome rs = TriggerOutcome.Empty)
    ∧ ((∀ r ∈ rs, r = none) → resolveOutcome rs = TriggerOutcome.Error true) :=
  ⟨resolveOutcome_keywords rs, resolveOutcome_empty rs, resolveOutcome_error rs⟩

/-- Witness for C1 at a concrete completion order. -/
theorem tie_break_correct_witness :
    ∃ l, l ≠ [] ∧ some l ∈ [none, some ["foo", "style"]] ∧
      resolveOutcome [none, some ["foo", "style"]] = TriggerOutcome.Keywords l :=
  (tie_break_correct [none, some ["foo", "style"]]).1
    ⟨["foo", "style"], by simp, by simp⟩

/-- **C5 counterexample.** Two completion orders of the same multiset of
per-partition outcomes yield different final outcome values: with both
partitions returning distinct non-empty lists, the first to complete wins,
so the payload depends on arrival order. -/
theorem resolver_order_dependent :
    List.Perm [some ["a"], some ["b"]] [some ["b"], some ["a"]]
    ∧ resolveOutcome [some ["a"], some ["b"]] = TriggerOutcome.Keywords ["a"]
    ∧ resolveOutcome [some ["b"], some ["a"]] = TriggerOutcome.Keywords ["b"]
    ∧ TriggerOutcome.Keywords ["a"] ≠ TriggerOutcome.Keywords ["b"] := by
  refine ⟨List.Perm.swap _ _ _, by decide, by decide, by decide⟩

/-- **C5 amended.** Given the multiset of per-partition outcomes, the final
*classification* (which constructor: `Keywords`, `Empty` or `Error`) is
independent of arrival order; moreover, when at most one partition returns
a non-empty list, the full outcome value (payload included) is independent
of arrival order. -/
theorem classification_order_independent (rs rs' : List (Option (List String)))
    (hperm : List.Perm rs rs') :
    outcomeTag (resolveOutcome rs) = outcomeTag (resolveOutcome rs')
    ∧ (rs.countP truthy ≤ 1 → resolveOutcome rs = resolveOutcome rs') := by
  by_cases hne : ∃ l, some l ∈ rs ∧ l ≠ []
  · obtain ⟨l, hnel, hmem, heq⟩ := resolveOutcome_keywords rs hne
    have hne' : ∃ l, some l ∈ rs' ∧ l ≠ [] := by
      obtain ⟨l0, hmem0, hne0⟩ := hne
      exact ⟨l0, hperm.mem_iff.mp hmem0, hne0⟩
    obtain ⟨l', hnel', hmem', heq'⟩ := resolveOutcome_keywords rs' hne'
    constructor
    · simp [heq, heq', outcomeTag]
    · intro hcount
      have hmemf : some l ∈ rs.filter truthy :=
        List.mem_filter.mpr ⟨hmem, (truthy_some_iff l).mpr hnel⟩
      have hmemf' : some l' ∈ rs'.filter truthy :=
        List.mem_filter.mpr ⟨hmem', (truthy_some_iff l').mpr hnel'⟩
      have hlen : (rs.filter truthy).length = 1 := by
        have h1 : 1 ≤ (rs.filter truthy).length :=
          List.length_pos.mpr (List.ne_nil_of_mem hmemf)
        have h2 : (rs.filter truthy).length ≤ 1 := by
          simpa [List.countP_eq_length_filter] using hcount
        omega
      obtain ⟨x, hx⟩ := List.length_eq_one.mp hlen
      have hx' : rs'.filter truthy = [x] := by
        have : List.Perm (rs'.filter truthy) (rs.filter truthy) :=
          (hperm.filter truthy).symm
        rw [hx] at this
        exact List.perm_singleton.mp this
      have hl : some l = x := by
        rw [hx] at hmemf
        simpa using hmemf
      have hl' : some l' = x := by
        rw [hx'] at hmemf'
        simpa using hmemf'
      have : l = l' := by
        have := hl.trans hl'.symm
        exact Option.some.inj this
      rw [heq, heq', this]
  · have hall : ∀ l, some l ∈ rs → l = [] := by
      intro l hl
      by_contra hne0
      exact hne ⟨l, hl, hne0⟩
    have hall' : ∀ l, some l ∈ rs' → l = [] := by
      intro l hl
      exact hall l (hperm.mem_iff.mpr hl)
    have hany : rs.any Option.isSome = rs'.any Option.isSome := by
      cases h : rs'.any Option.isSome with
      | true =>
        obtain ⟨r, hr, hsr⟩ := List.any_eq_true.mp h
        exact List.any_eq_true.mpr ⟨r, hperm.mem_iff.mpr hr, hsr⟩
      | false =>
        rw [List.any_eq_false] at h ⊢
        intro r hr
        exact h r (hperm.mem_iff.mp hr)
    have heq : resolveOutcome rs = resolveOutcome rs' := by
      rw [resolveOutcome_no_nonempty rs hall, resolveOutcome_no_nonempty rs' hall', hany]
    exact ⟨by rw [heq], fun _ => heq⟩

/-- Witness for the amended C5 at a concrete pair of completion orders. -/
theorem classification_order_independent_witness :
    outcomeTag (resolveOutcome [none, some ["x"]]) =
      outcomeTag (resolveOutcome [some ["x"], none])
    ∧ resolveOutcome [none, some ["x"]] = resolveOutcome [some ["x"], none] := by
  have h := classification_order_independent [none, some ["x"]] [some ["x"], none]
    (List.Perm.swap _ _ _)
  exact ⟨h.1, h.2 (by decide)⟩

/- ### The paginated search worker (`search_civitai_paginated`) -/

/-- Split a character list on a separator, keeping empty segments
(the behaviour of splitting a POSIX path on `/`). -/
def splitSegsAux (sep : Char) : List Char → List Char → List (List Char)
  | [], acc => [acc.reverse]
  | c :: cs, acc =>
    if c = sep then acc.reverse :: splitSegsAux sep cs []
    else splitSegsAux sep cs (c :: acc)

/-- `pathlib.PurePath(...).name`: the last path component after dropping
empty and `.` segments (empty when there is none). -/
def pyName (s : String) : String :=
  let segs := (splitSegsAux '/' s.data []).filter
    fun t => !t.isEmpty && !(t == ['.'])
  String.mk (segs.getLastD [])

/-- Index of the last `.` in a character list (`str.rfind`), if any. -/
def lastDotAux : List Char → Nat → Option Nat
  | [], _ => none
  | c :: rest, i =>
    match lastDotAux rest (i + 1) with
    | some j => some j
    | none => if c = '.' then some i else none

/-- `pathlib.PurePath(...).stem`: the final component without its last
suffix. CPython computes `i = name.rfind('.')` and strips `name[:i]` only
when `0 < i < len(name) - 1`. -/
def pyStem (s : String) : String :=
  let n := (pyName s).data
  match lastDotAux n 0 with
  | some i => if 0 < i ∧ i < n.length - 1 then String.mk (n.take i) else String.mk n
  | none => String.mk n

/-- One `files` entry of a model version in a catalog page. -/
structure FileInfo where
  name : String
deriving DecidableEq, Repr

/-- One `modelVersions` entry: nested file entries plus the version-level
`trainedWords` list. -/
structure ModelVersion where
  files : List FileInfo
  trainedWords : List String
deriving DecidableEq, Repr

/-- One model entry of a catalog page (`items` element). -/
structure ModelItem where
  modelVersions : List ModelVersion
deriving DecidableEq, Repr

/-- The per-file test at line 74: `Path(file_info.get('name', '')).stem ==
lora_stem`. -/
def fileMatches (stem : String) (f : FileInfo) : Bool :=
  decide (pyStem f.name = stem)

/-- The middle loop over `model.get('modelVersions', [])`: the first version
containing a matching file yields that version's `trainedWords`. -/
def searchVersions (stem : String) : List ModelVersion → Option (List String)
  | [] => none
  | v :: vs =>
    if v.files.any (fileMatches stem) then some v.trainedWords
    else searchVersions stem vs

/-- The outer loop over `items` at lines 71-77. -/
def searchItems (stem : String) : List ModelItem → Option (List String)
  | [] => none
  | it :: rest =>
    match searchVersions stem it.modelVersions with
    | some w => some w
    | none => searchItems stem rest

/-- The result of fetching one page: either a transport/decoding failure
(the `except requests.exceptions.RequestException` branch), or a page with
its item list and whether `metadata.nextPage` carries a continuation
cursor. -/
inductive PageResp where
  | failure
  | page (items : List ModelItem) (hasNext : Bool)
deriving DecidableEq, Repr

/-- The `while current_page_url` loop of `search_civitai_paginated` over a
finite chain of successive page-fetch results, also counting the number of
page fetches performed. A failed fetch returns `None`; an empty item list
breaks the loop; a structural match returns immediately; otherwise the
loop continues exactly when a continuation cursor is present. -/
def searchChain (stem : String) : List PageResp → Option (List String) × Nat
  | [] => (none, 0)
  | PageResp.failure :: _ => (none, 1)
  | PageResp.page items hasNext :: rest =>
    if items.isEmpty then (none, 1)
    else
      match searchItems stem items with
      | some w => (some w, 1)
      | none =>
        if hasNext then
          let r := searchChain stem rest
          (r.1, r.2 + 1)
        else (none, 1)

/-- A well-formed cursor chain with no matching file on any page: every
non-final page has a non-empty item list, no match, and a continuation
cursor; the final page either has no cursor or an empty item list. -/
inductive NoMatchChain (stem : String) : List PageResp → Prop where
  | lastNull (items : List ModelItem) (hne : items ≠ [])
      (hnm : searchItems stem items = none) :
      NoMatchChain stem [PageResp.page items false]
  | lastEmpty (hn : Bool) : NoMatchChain stem [PageResp.page [] hn]
  | cons (items : List ModelItem) (hne : items ≠ [])
      (hnm : searchItems stem items = none) (rest : List PageResp)
      (h : NoMatchChain stem rest) :
      NoMatchChain stem (PageResp.page items true :: rest)

theorem isEmpty_false_of_ne_nil {α : Type} {l : List α} (h : l ≠ []) :
    l.isEmpty = false := by
  cases l with
  | nil => exact absurd rfl h
  | cons a t => rfl

/-- **C6.** Pagination terminates: an empty item list on the first page
yields `None` after exactly one fetch; a no-match cursor chain of K pages
yields `None` after exactly K fetches. -/
theorem pagination_terminates (stem : String) :
    (∀ (hn : Bool) (rest : List PageResp),
      searchChain stem (PageResp.page [] hn :: rest) = (none, 1))
    ∧ ∀ chain, NoMatchChain stem chain →
      searchChain stem chain = (none, chain.length) := by
  constructor
  · intro hn rest
    simp [searchChain]
  · intro chain h
    induction h with
    | lastNull items hne hnm =>
      simp [searchChain, isEmpty_false_of_ne_nil hne, hnm]
    | lastEmpty hn =>
      simp [searchChain]
    | cons items hne hnm rest h ih =>
      simp [searchChain, isEmpty_false_of_ne_nil hne, hnm, ih]

/-- Witness for C6: an immediately-empty page, and a concrete two-page
no-match cursor chain. -/
theorem pagination_terminates_witness :
    searchChain "mylora" [PageResp.page [] true] = (none, 1)
    ∧ searchChain "mylora"
        [PageResp.page [ModelItem.mk [ModelVersion.mk [FileInfo.mk "other.safetensors"] ["w1"]]] true,
         PageResp.page [ModelItem.mk [ModelVersion.mk [FileInfo.mk "zzz.ckpt"] []]] false] =
      (none, 2) := by
  refine ⟨(pagination_terminates "mylora").1 true [], ?_⟩
  have h := (pagination_terminates "mylora").2
    [PageResp.page [ModelItem.mk [ModelVersion.mk [FileInfo.mk "other.safetensors"] ["w1"]]] true,
     PageResp.page [ModelItem.mk [ModelVersion.mk [FileInfo.mk "zzz.ckpt"] []]] false]
    (NoMatchChain.cons _ (by decide) (by decide) _
      (NoMatchChain.lastNull _ (by decide) (by decide)))
  simpa using h

theorem searchVersions_finds (stem : String) (vs : List ModelVersion)
    (hex : ∃ v ∈ vs, ∃ f ∈ v.files, pyStem f.name = stem) :
    ∃ w, searchVersions stem vs = some w
      ∧ ∃ v ∈ vs, v.trainedWords = w ∧ ∃ f ∈ v.files, pyStem f.name = stem := by
  induction vs with
  | nil => simp at hex
  | cons v rest ih =>
    by_cases hv : v.files.any (fileMatches stem)
    · obtain ⟨f, hf, hmf⟩ := List.any_eq_true.mp hv
      refine ⟨v.trainedWords, by simp [searchVersions, hv], v,
        List.mem_cons_self _ _, rfl, f, hf, of_decide_eq_true hmf⟩
    · have hrest : ∃ v ∈ rest, ∃ f ∈ v.files, pyStem f.name = stem := by
        obtain ⟨v0, hv0, f0, hf0, hm0⟩ := hex
        rcases List.mem_cons.mp hv0 with h0 | h0
        · subst h0
          exact absurd (List.any_eq_true.mpr ⟨f0, hf0, decide_eq_true hm0⟩) hv
        · exact ⟨v0, h0, f0, hf0, hm0⟩
      obtain ⟨w, hw, v1, hv1, hw1, hf1⟩ := ih hrest
      exact ⟨w, by simp [searchVersions, hv, hw], v1,
        List.mem_cons_of_mem _ hv1, hw1, hf1⟩

theorem searchVersions_some (stem : String) (vs : List ModelVersion)
    (w : List String) (h : searchVersions stem vs = some w) :
    ∃ v ∈ vs, v.trainedWords = w ∧ ∃ f ∈ v.files, pyStem f.name = stem := by
  induction vs with
  | nil => simp [searchVersions] at h
  | cons v rest ih =>
    by_cases hv : v.files.any (fileMatches stem)
    · simp [searchVersions, hv] at h
      obtain ⟨f, hf, hmf⟩ := List.any_eq_true.mp hv
      exact ⟨v, List.mem_cons_self _ _, h, f, hf, of_decide_eq_true hmf⟩
    · simp [searchVersions, hv] at h
      obtain ⟨v1, hv1, hw1, hf1⟩ := ih h
      exact ⟨v1, List.mem_cons_of_mem _ hv1, hw1, hf1⟩

theorem searchItems_finds (stem : String) (items : List ModelItem)
    (hex : ∃ it ∈ items, ∃ v ∈ it.modelVersions, ∃ f ∈ v.files, pyStem f.name = stem) :
    ∃ w, searchItems stem items = some w
      ∧ ∃ it ∈ items, ∃ v ∈ it.modelVersions, v.trainedWords = w
        ∧ ∃ f ∈ v.files, pyStem f.name = stem := by
  induction items with
  | nil => simp at hex
  | cons it rest ih =>
    cases hv : searchVersions stem it.modelVersions with
    | some w =>
      obtain ⟨v1, hv1, hw1, hf1⟩ := searchVersions_some stem it.modelVersions w hv
      exact ⟨w, by simp [searchItems, hv], it, List.mem_cons_self _ _, v1, hv1, hw1, hf1⟩
    | none =>
      have hrest : ∃ it ∈ rest, ∃ v ∈ it.modelVersions, ∃ f ∈ v.files,
          pyStem f.name = stem := by
        obtain ⟨it0, hit0, v0, hv0, f0, hf0, hm0⟩ := hex
        rcases List.mem_cons.mp hit0 with h0 | h0
        · subst h0
          obtain ⟨w, hw, _⟩ := searchVersions_finds stem it0.modelVersions ⟨v0, hv0, f0, hf0, hm0⟩
          rw [hw] at hv
          exact Option.noConfusion hv
        · exact ⟨it0, h0, v0, hv0, f0, hf0, hm0⟩
      obtain ⟨w, hw, it1, hit1, hrest'⟩ := ih hrest
      exact ⟨w, by simp [searchItems, hv, hw], it1, List.mem_cons_of_mem _ hit1, hrest'⟩

/-- **C7.** If some item of a page contains, in its nested version/file
structure, a file whose base-name stem equals the searched identifier, the
worker returns the trigger-word list of the enclosing version immediately
(possibly the empty list) after that single page fetch, fetching no further
pages. -/
theorem first_match_returns_immediately (stem : String) (items : List ModelItem)
    (hn : Bool) (rest : List PageResp)
    (hex : ∃ it ∈ items, ∃ v ∈ it.modelVersions, ∃ f ∈ v.files, pyStem f.name = stem) :
    ∃ w, (∃ it ∈ items, ∃ v ∈ it.modelVersions, v.trainedWords = w
        ∧ ∃ f ∈ v.files, pyStem f.name = stem)
      ∧ searchChain stem (PageResp.page items hn :: rest) = (some w, 1) := by
  obtain ⟨w, hw, hwit⟩ := searchItems_finds stem items hex
  have hne : items ≠ [] := by
    obtain ⟨it, hit, _⟩ := hex
    exact List.ne_nil_of_mem hit
  exact ⟨w, hwit, by simp [searchChain, isEmpty_false_of_ne_nil hne, hw]⟩

/-- Witness for C7: a match whose version carries zero trigger words — the
result is `some []` after one fetch, distinct from no-match `none`. -/
theorem first_match_returns_immediately_witness :
    ∃ w, (∃ it ∈ [ModelItem.mk [ModelVersion.mk [FileInfo.mk "mylora.safetensors"] []]],
        ∃ v ∈ it.modelVersions, v.trainedWords = w
          ∧ ∃ f ∈ v.files, pyStem f.name = "mylora")
      ∧ searchChain "mylora"
          [PageResp.page [ModelItem.mk [ModelVersion.mk [FileInfo.mk "mylora.safetensors"] []]] true,
           PageResp.failure] = (some w, 1) :=
  first_match_returns_immediately "mylora"
    [ModelItem.mk [ModelVersion.mk [FileInfo.mk "mylora.safetensors"] []]]
    true [PageResp.failure] (by decide)

/-- A non-final page of a chain: non-empty items, no match, and a
continuation cursor. -/
def ContPage (stem : String) (p : PageResp) : Prop :=
  ∃ items, p = PageResp.page items true ∧ items ≠ [] ∧ searchItems stem items = none

/-- **C8.** A transport or decoding failure on any page fetch aborts the
search for the partition and yields `None` — the same value as a genuine
no-match — after the failing fetch. -/
theorem failure_aborts_partition (stem : String) (pre rest : List PageResp)
    (h : ∀ p ∈ pre, ContPage stem p) :
    searchChain stem (pre ++ PageResp.failure :: rest) = (none, pre.length + 1) := by
  induction pre with
  | nil => simp [searchChain]
  | cons p pre' ih =>
    obtain ⟨items, hp, hne, hnm⟩ := h p (List.mem_cons_self _ _)
    subst hp
    have hrec := ih fun q hq => h q (List.mem_cons_of_mem _ hq)
    simp [searchChain, isEmpty_false_of_ne_nil hne, hnm, hrec]

/-- Witness for C8: one good no-match page followed by a failing fetch. -/
theorem failure_aborts_partition_witness :
    searchChain "mylora"
      [PageResp.page [ModelItem.mk [ModelVersion.mk [FileInfo.mk "other.safetensors"] ["w1"]]] true,
       PageResp.failure] = (none, 2) := by
  have h := failure_aborts_partition "mylora"
    [PageResp.page [ModelItem.mk [ModelVersion.mk [FileInfo.mk "other.safetensors"] ["w1"]]] true]
    [] (by
      intro p hp
      simp at hp
      subst hp
      exact ⟨_, rfl, by decide, by decide⟩)
  simpa using h

/- ### Cache store and the orchestrator (`fetch_triggers_for_lora`) -/

/-- A value the cache maps an identifier to: a JSON list of strings (the
keyword list, possibly empty) or the retry sentinel dict
`{"error": ..., "retry": true}` written at line 144. -/
inductive CacheValue where
  | strs (l : List String)
  | errRetry
deriving DecidableEq, Repr

/-- The keyword cache: a finite map from identifier to cached value,
embedded as an association list with at most one entry per key. -/
abbrev CacheStore := List (String × CacheValue)

/-- Python dict assignment `LORA_KEYWORDS_CACHE[lora_name] = v`. -/
def setKey (store : CacheStore) (k : String) (v : CacheValue) : CacheStore :=
  (k, v) :: store.filter fun p => !(p.1 == k)

/-- The backing JSON document on disk: absent, unparseable, or a parsed
store. -/
inductive FileState where
  | absent
  | corrupt
  | valid (s : CacheStore)
deriving DecidableEq, Repr

/-- `load_keywords_from_json`, lines 21-32: a missing file is created empty
and yields the empty store; a file that fails to parse yields the empty
store and is left as-is; otherwise the parsed store is returned. The second
component is the document state afterwards. -/
def loadKeywords : FileState → CacheStore × FileState
  | FileState.absent => ([], FileState.valid [])
  | FileState.corrupt => ([], FileState.corrupt)
  | FileState.valid s => (s, FileState.valid s)

/-- `save_keywords_to_json`, lines 34-37: the whole store replaces the
document's prior contents. -/
def saveKeywords (store : CacheStore) (_fs : FileState) : FileState :=
  FileState.valid store

/-- State threaded through a `fetch_triggers_for_lora` call: the in-memory
`LORA_KEYWORDS_CACHE` and the persisted document's contents. -/
structure FetchState where
  store : CacheStore
  doc : CacheStore
deriving DecidableEq, Repr

/-- Observable result of one `fetch_triggers_for_lora` call: the returned
keyword list, the in-memory store and persisted document afterwards, and
whether a network search was performed. -/
structure FetchOut where
  ret : List String
  store : CacheStore
  doc : CacheStore
  searched : Bool
deriving DecidableEq, Repr

/-- The re-resolution path, lines 105-147: run the concurrent search,
classify via the `if found_words / elif match_found_with_empty_keywords /
else` ladder, write the corresponding cache value, and persist the entire
store. `rs` lists the per-partition results in completion order. -/
def resolveAndCache (st : FetchState) (name : String)
    (rs : List (Option (List String))) : FetchOut :=
  let p := resolveLoop rs false
  if truthy p.1 then
    let s := setKey st.store name (CacheValue.strs (p.1.getD []))
    ⟨p.1.getD [], s, s, true⟩
  else if p.2 then
    let s := setKey st.store name (CacheValue.strs [])
    ⟨[], s, s, true⟩
  else
    let s := setKey st.store name CacheValue.errRetry
    ⟨[], s, s, true⟩

/-- `fetch_triggers_for_lora`, lines 91-147: a cached list is returned
directly with no search; a cached retry sentinel or a cache miss falls
through to re-resolution. -/
def fetchTriggers (st : FetchState) (name : String)
    (rs : List (Option (List String))) : FetchOut :=
  match st.store.lookup name with
  | some (CacheValue.strs l) => ⟨l, st.store, st.doc, false⟩
  | some CacheValue.errRetry => resolveAndCache st name rs
  | none => resolveAndCache st name rs

/-- The orchestrator re-resolves exactly when the identifier is absent from
the cache or cached as a retryable error. -/
def needsResolve (store : CacheStore) (name : String) : Prop :=
  store.lookup name = none ∨ store.lookup name = some CacheValue.errRetry

theorem truthy_eq_true_iff (o : Option (List String)) :
    truthy o = true ↔ ∃ l, o = some l ∧ l ≠ [] := by
  match o with
  | none => simp [truthy]
  | some [] => simp [truthy]
  | some (w :: ws) => simp [truthy]

/-- The three branches of `resolveAndCache`, indexed by the resolver's
outcome. -/
theorem resolveAndCache_eq (st : FetchState) (name : String)
    (rs : List (Option (List String))) :
    (∃ l, l ≠ [] ∧ resolveOutcome rs = TriggerOutcome.Keywords l
      ∧ resolveAndCache st name rs =
        ⟨l, setKey st.store name (CacheValue.strs l),
          setKey st.store name (CacheValue.strs l), true⟩)
    ∨ (resolveOutcome rs = TriggerOutcome.Empty
      ∧ resolveAndCache st name rs =
        ⟨[], setKey st.store name (CacheValue.strs []),
          setKey st.store name (CacheValue.strs []), true⟩)
    ∨ (resolveOutcome rs = TriggerOutcome.Error true
      ∧ resolveAndCache st name rs =
        ⟨[], setKey st.store name CacheValue.errRetry,
          setKey st.store name CacheValue.errRetry, true⟩) := by
  cases h1 : truthy (resolveLoop rs false).1 with
  | true =>
    obtain ⟨l, hl, hne⟩ := (truthy_eq_true_iff _).mp h1
    have h1' : truthy (some l) = true := hl ▸ h1
    refine Or.inl ⟨l, hne, ?_, ?_⟩
    · simp [resolveOutcome, classifyOutcome, hl, h1']
    · simp [resolveAndCache, hl, h1']
  | false =>
    cases h2 : (resolveLoop rs false).2 with
    | true =>
      refine Or.inr (Or.inl ⟨?_, ?_⟩)
      · simp [resolveOutcome, classifyOutcome, h1, h2]
      · simp [resolveAndCache, h1, h2]
    | false =>
      refine Or.inr (Or.inr ⟨?_, ?_⟩)
      · simp [resolveOutcome, classifyOutcome, h1, h2]
      · simp [resolveAndCache, h1, h2]

theorem fetchTriggers_eq_resolveAndCache (st : FetchState) (name : String)
    (rs : List (Option (List String))) (h : needsResolve st.store name) :
    fetchTriggers st name rs = resolveAndCache st name rs := by
  rcases h with h | h <;> simp [fetchTriggers, h]

theorem lookup_setKey (store : CacheStore) (k : String) (v : CacheValue) :
    (setKey store k v).lookup k = some v := by
  simp [setKey, List.lookup]

/-- **C2.** `getTriggers` is total — it always hands the caller a list of
strings — and when re-resolution yields `Error{retryable:true}` it returns
the empty sequence while caching the retryable sentinel. -/
theorem getTriggers_never_fails (st : FetchState) (name : String)
    (rs : List (Option (List String))) :
    (∃ l : List String, (fetchTriggers st name rs).ret = l)
    ∧ (needsResolve st.store name → resolveOutcome rs = TriggerOutcome.Error true →
        (fetchTriggers st name rs).ret = []
        ∧ (fetchTriggers st name rs).store.lookup name = some CacheValue.errRetry) := by
  refine ⟨⟨_, rfl⟩, fun hneed herr => ?_⟩
  rw [fetchTriggers_eq_resolveAndCache st name rs hneed]
  rcases resolveAndCache_eq st name rs with ⟨l, _, hout, heq⟩ | ⟨hout, heq⟩ | ⟨_, heq⟩
  · rw [hout] at herr
    exact absurd herr (by simp)
  · rw [hout] at herr
    exact absurd herr (by simp)
  · rw [heq]
    exact ⟨rfl, lookup_setKey st.store name CacheValue.errRetry⟩

/-- Witness for C2: all-no-match results on an empty cache. -/
theorem getTriggers_never_fails_witness :
    (fetchTriggers ⟨[], []⟩ "baz" [none, none]).ret = []
    ∧ (fetchTriggers ⟨[], []⟩ "baz" [none, none]).store.lookup "baz" =
      some CacheValue.errRetry :=
  (getTriggers_never_fails ⟨[], []⟩ "baz" [none, none]).2 (Or.inl rfl) (by decide)

/-- **C3.** A cached list (keywords or empty) is returned as-is: no search
is performed, the store and the persisted document are untouched, and a
repeated call — with any later per-partition results — observes the same. -/
theorem cached_hit_idempotent (st : FetchState) (name : String)
    (rs rs' : List (Option (List String))) (l : List String)
    (h : st.store.lookup name = some (CacheValue.strs l)) :
    fetchTriggers st name rs = ⟨l, st.store, st.doc, false⟩
    ∧ fetchTriggers ⟨(fetchTriggers st name rs).store, (fetchTriggers st name rs).doc⟩
        name rs' = ⟨l, st.store, st.doc, false⟩ := by
  have h1 : fetchTriggers st name rs = ⟨l, st.store, st.doc, false⟩ := by
    simp [fetchTriggers, h]
  refine ⟨h1, ?_⟩
  rw [h1]
  simp [fetchTriggers, h]

/-- Witness for C3 at a concrete one-entry cache. -/
theorem cached_hit_idempotent_witness :
    fetchTriggers ⟨[("a", CacheValue.strs ["k"])], [("a", CacheValue.strs ["k"])]⟩
        "a" [none, none] =
      ⟨["k"], [("a", CacheValue.strs ["k"])], [("a", CacheValue.strs ["k"])], false⟩
    ∧ fetchTriggers
        ⟨(fetchTriggers ⟨[("a", CacheValue.strs ["k"])], [("a", CacheValue.strs ["k"])]⟩
            "a" [none, none]).store,
         (fetchTriggers ⟨[("a", CacheValue.strs ["k"])], [("a", CacheValue.strs ["k"])]⟩
            "a" [none, none]).doc⟩ "a" [some ["z"]] =
      ⟨["k"], [("a", CacheValue.strs ["k"])], [("a", CacheValue.strs ["k"])], false⟩ :=
  cached_hit_idempotent
    ⟨[("a", CacheValue.strs ["k"])], [("a", CacheValue.strs ["k"])]⟩
    "a" [none, none] [some ["z"]] ["k"] (by decide)

/-- **C4.** A cached `Error{retryable:true}` entry is not returned: the call
falls through to re-resolution — the search runs again and the result is
exactly that of the re-resolution path. -/
theorem retryable_not_sticky (st : FetchState) (name : String)
    (rs : List (Option (List String)))
    (h : st.store.lookup name = some CacheValue.errRetry) :
    (fetchTriggers st name rs).searched = true
    ∧ fetchTriggers st name rs = resolveAndCache st name rs := by
  have h2 : fetchTriggers st name rs = resolveAndCache st name rs := by
    simp [fetchTriggers, h]
  refine ⟨?_, h2⟩
  rw [h2]
  rcases resolveAndCache_eq st name rs with ⟨l, _, _, heq⟩ | ⟨_, heq⟩ | ⟨_, heq⟩ <;>
    rw [heq]

/-- Witness for C4 at a concrete retry-flagged cache entry. -/
theorem retryable_not_sticky_witness :
    (fetchTriggers ⟨[("b", CacheValue.errRetry)], [("b", CacheValue.errRetry)]⟩
        "b" [some ["kw"], none]).searched = true
    ∧ fetchTriggers ⟨[("b", CacheValue.errRetry)], [("b", CacheValue.errRetry)]⟩
        "b" [some ["kw"], none] =
      resolveAndCache ⟨[("b", CacheValue.errRetry)], [("b", CacheValue.errRetry)]⟩
        "b" [some ["kw"], none] :=
  retryable_not_sticky ⟨[("b", CacheValue.errRetry)], [("b", CacheValue.errRetry)]⟩
    "b" [some ["kw"], none] (by decide)

/-- **C9.** Cache loading is total and soft-failing: an absent document is
created empty and yields the empty store; an unparseable document yields
the empty store; a parseable document yields its contents. -/
theorem load_total_soft_failing :
    loadKeywords FileState.absent = ([], FileState.valid [])
    ∧ loadKeywords FileState.corrupt = ([], FileState.corrupt)
    ∧ ∀ s, loadKeywords (FileState.valid s) = (s, FileState.valid s) :=
  ⟨rfl, rfl, fun _ => rfl⟩

/-- **C10.** On every resolution attempt, the value written under the
identifier is a non-empty string list, the empty list, or the retry
sentinel — matching the `Keywords` / `Empty` / `Error` classification —
and the persisted document is immediately rewritten to equal the in-memory
store. -/
theorem cache_shape_and_persist (st : FetchState) (name : String)
    (rs : List (Option (List String))) (h : needsResolve st.store name) :
    (fetchTriggers st name rs).doc = (fetchTriggers st name rs).store
    ∧ ∃ v, (fetchTriggers st name rs).store.lookup name = some v
      ∧ ((∃ l, l ≠ [] ∧ v = CacheValue.strs l
            ∧ resolveOutcome rs = TriggerOutcome.Keywords l)
        ∨ (v = CacheValue.strs [] ∧ resolveOutcome rs = TriggerOutcome.Empty)
        ∨ (v = CacheValue.errRetry ∧ resolveOutcome rs = TriggerOutcome.Error true)) := by
  rw [fetchTriggers_eq_resolveAndCache st name rs h]
  rcases resolveAndCache_eq st name rs with
    ⟨l, hne, hout, heq⟩ | ⟨hout, heq⟩ | ⟨hout, heq⟩
  · rw [heq]
    exact ⟨rfl, CacheValue.strs l, lookup_setKey _ _ _, Or.inl ⟨l, hne, rfl, hout⟩⟩
  · rw [heq]
    exact ⟨rfl, CacheValue.strs [], lookup_setKey _ _ _, Or.inr (Or.inl ⟨rfl, hout⟩)⟩
  · rw [heq]
    exact ⟨rfl, CacheValue.errRetry, lookup_setKey _ _ _, Or.inr (Or.inr ⟨rfl, hout⟩)⟩

/-- Witness for C10: a mixed completion order on an empty cache. -/
theorem cache_shape_and_persist_witness :
    (fetchTriggers ⟨[], []⟩ "foo_v2" [none, some ["foo", "style"]]).doc =
      (fetchTriggers ⟨[], []⟩ "foo_v2" [none, some ["foo", "style"]]).store
    ∧ ∃ v, (fetchTriggers ⟨[], []⟩ "foo_v2"
          [none, some ["foo", "style"]]).store.lookup "foo_v2" = some v
      ∧ ((∃ l, l ≠ [] ∧ v = CacheValue.strs l
            ∧ resolveOutcome [none, some ["foo", "style"]] = TriggerOutcome.Keywords l)
        ∨ (v = CacheValue.strs []
            ∧ resolveOutcome [none, some ["foo", "style"]] = TriggerOutcome.Empty)
        ∨ (v = CacheValue.errRetry
            ∧ resolveOutcome [none, some ["foo", "style"]] = TriggerOutcome.Error true)) :=
  cache_shape_and_persist ⟨[], []⟩ "foo_v2" [none, some ["foo", "style"]] (Or.inl rfl)

end LoraResolver
